import Mathlib

/-!
Verification of the eldrow word-guessing constraint engine (src/src/main.rs).

Words are embedded as lists of characters (`word.chars()` in the source);
the candidate `HashSet<String>` is embedded as a `List Word` whose set-level
behaviour (membership, cardinality) is what the theorems speak about.
Rust panics (`unwrap` on a missing character, `unreachable!()`, out-of-bounds
indexing, the explicit `panic!("Empty wordlist")`) are embedded as values of
the `Panic` type carried in `Except`: a `.error` result means the process
aborts at that point.
-/

set_option autoImplicit false

namespace Eldrow

abbrev Word := List Char

/-- Tile states of one guess position, from `enum Tile` in the source. -/
inductive Tile where
  | correct (c : Char)
  | incorrect (c : Char)
  | unused (c : Char)
  | unchecked (c : Char)
  deriving DecidableEq

/-- Tests for the transient pre-classification state, used to phrase which
positions the classification passes may still write. -/
def Tile.isUnchecked : Tile → Bool
  | .unchecked _ => true
  | _ => false

/-- Kinds of process aborts the source can perform: `tiles[i]` with an
out-of-range index, the `unreachable!()` arms, the `.unwrap()` on
`word.chars().nth(idx)`, and `panic!("Empty wordlist")`. -/
inductive Panic where
  | indexOutOfBounds
  | unreachableHit
  | unwrapNone
  deriving DecidableEq

/-- Embeds `fn prune`: `words.retain(|word| !word.contains(ch))`. -/
def prune (ws : List Word) (ch : Char) : List Word :=
  ws.filter fun w => !(w.contains ch)

/-- Embeds `fn require`: `words.retain(|word| word.contains(ch))`. -/
def require (ws : List Word) (ch : Char) : List Word :=
  ws.filter fun w => w.contains ch

/-- Embeds `fn prune_at`: `words.retain(|word| word.chars().nth(idx).unwrap() != ch)`.
The `unwrap` panics as soon as some retained word has no character at
position `idx`; the partially-retained state is unobservable because the
process dies, so the embedding panics iff some word of the set lacks the
position, and otherwise filters. -/
def prune_at (ws : List Word) (ch : Char) (idx : Nat) : Except Panic (List Word) :=
  if ∀ w ∈ ws, (w.get? idx).isSome then
    .ok (ws.filter fun w => !(w.get? idx == some ch))
  else
    .error .unwrapNone

/-- Embeds `fn require_at`: `words.retain(|word| word.chars().nth(idx).unwrap() == ch)`. -/
def require_at (ws : List Word) (ch : Char) (idx : Nat) : Except Panic (List Word) :=
  if ∀ w ∈ ws, (w.get? idx).isSome then
    .ok (ws.filter fun w => w.get? idx == some ch)
  else
    .error .unwrapNone

/-- Embeds `fn letter_counts`: every character of every word of the set is
visited and its entry incremented, so the count of `c` is the number of
occurrences of `c` in the concatenation of all words. (The Rust `HashMap`
simply has no entry for a letter with count zero.) -/
def letter_counts (ws : List Word) : Char → Nat :=
  fun c => (ws.flatten).count c

/-- Embeds `fn score`: `word.chars().map(|c| letter_counts.get(&c).unwrap()).sum()`.
The `unwrap` is safe in the source because `score` is only applied to members
of the set `letter_counts` was built from (see `letter_counts_pos_of_mem`). -/
def score (w : Word) (counts : Char → Nat) : Nat :=
  (w.map counts).sum

/-- Embeds one pass of index application in the `Command::Guess` arm:
`indices.into_iter().for_each(|i| match tiles[i] { Tile::Unchecked(c) => tiles[i] = mk(c), _ => unreachable!() })`.
`tiles[i]` with `i` out of range aborts with an index-out-of-bounds panic;
a tile that is no longer `Unchecked` hits the `unreachable!()` arm. -/
def classifyPass (mk : Char → Tile) : List Tile → List Nat → Except Panic (List Tile)
  | tiles, [] => .ok tiles
  | tiles, i :: rest =>
    match tiles.get? i with
    | none => .error .indexOutOfBounds
    | some (.unchecked c) => classifyPass mk (tiles.set i (mk c)) rest
    | some _ => .error .unreachableHit

/-- Embeds the tile-classification part of the `Command::Guess` arm:
start from `Unchecked` tiles over the guess letters, apply the correct
indices, then the incorrect indices, then turn every remaining `Unchecked`
tile into `Unused`. -/
def classify (guess : Word) (correct incorrect : List Nat) : Except Panic (List Tile) :=
  match classifyPass Tile.correct (guess.map Tile.unchecked) correct with
  | .error e => .error e
  | .ok t₁ =>
    match classifyPass Tile.incorrect t₁ incorrect with
    | .error e => .error e
    | .ok t₂ =>
      .ok (t₂.map fun t => match t with
        | .unchecked c => .unused c
        | t => t)

/-- Embeds `marked_tiles`: the letters of `Correct`/`Incorrect` tiles,
collected by `filter_map` before any `Unused` tile is processed. -/
def marked_tiles (tiles : List Tile) : List Char :=
  tiles.filterMap fun t => match t with
    | .correct c => some c
    | .incorrect c => some c
    | _ => none

/-- Embeds the `filter_map` selecting the letters of `Unused` tiles. -/
def unused_chars (tiles : List Tile) : List Char :=
  tiles.filterMap fun t => match t with
    | .unused c => some c
    | _ => none

/-- Embeds the global-prune loop of the `Command::Guess` arm: for each
`Unused` letter, `if marked_tiles.len() == 0 || !marked_tiles.contains(char) { prune(...) }`. -/
def applyGlobalPrunes (tiles : List Tile) (ws : List Word) : List Word :=
  (unused_chars tiles).foldl
    (fun ws c =>
      if (marked_tiles tiles).length == 0 || !((marked_tiles tiles).contains c) then
        prune ws c
      else ws)
    ws

/-- Embeds one arm of the per-position `match *tile` in the `Command::Guess`
loop: `Correct` ⇒ `require_at`, `Incorrect` ⇒ `prune_at` then `require`,
`Unused` ⇒ `prune_at`, `Unchecked` ⇒ `unreachable!()`. -/
def applyTile (ws : List Word) (i : Nat) : Tile → Except Panic (List Word)
  | .correct c => require_at ws c i
  | .incorrect c =>
    match prune_at ws c i with
    | .error e => .error e
    | .ok ws' => .ok (require ws' c)
  | .unused c => prune_at ws c i
  | .unchecked _ => .error .unreachableHit

/-- Embeds the per-position loop `for (i, tile) in tiles.iter().enumerate()`,
threading the candidate set through the indexed tiles in order. -/
def applyPositions : List (Nat × Tile) → List Word → Except Panic (List Word)
  | [], ws => .ok ws
  | (i, t) :: rest, ws =>
    match applyTile ws i t with
    | .error e => .error e
    | .ok ws' => applyPositions rest ws'

/-- Embeds constraint application of one classified tile sequence: the
global prunes for unmarked `Unused` letters first, then the per-position
predicates, exactly as the `Command::Guess` arm runs them. -/
def applyTiles (tiles : List Tile) (ws : List Word) : Except Panic (List Word) :=
  applyPositions tiles.enum (applyGlobalPrunes tiles ws)

/-- Embeds the whole `Command::Guess` arm on the candidate set: classify the
guess into tiles, then apply the derived constraints. A `.error` result is a
process abort that happens before any surviving set is produced. -/
def processGuess (guess : Word) (correct incorrect : List Nat)
    (ws : List Word) : Except Panic (List Word) :=
  match classify guess correct incorrect with
  | .error e => .error e
  | .ok tiles => applyTiles tiles ws

/-- Embeds `words.iter().max_by(|a, b| score(a..).cmp(&score(b..)))`:
a fold that keeps the current maximum unless the next element scores at
least as much (Rust's `max_by` returns the last maximal element). -/
def recommend (ws : List Word) : Option Word :=
  ws.foldl
    (fun acc w =>
      match acc with
      | none => some w
      | some m =>
        if score w (letter_counts ws) < score m (letter_counts ws) then some m
        else some w)
    none

/-- Outcome of the recommendation step at the bottom of the REPL loop. -/
inductive RecOutcome where
  | ok (w : Word)
  | panicked (msg : String)
  deriving DecidableEq

/-- Embeds `words.iter().max_by(..).unwrap_or_else(|| panic!("Empty wordlist"))`:
the recommendation either is a member of the set or, when the set is empty,
aborts the process with the panic message `Empty wordlist`. -/
def recommendation (ws : List Word) : RecOutcome :=
  match recommend ws with
  | some w => .ok w
  | none => .panicked "Empty wordlist"

/-- Boolean retention test of the per-position predicate a tile induces,
used to characterise the per-position loop as one filter. -/
def tilePred (i : Nat) (t : Tile) (w : Word) : Bool :=
  match t with
  | .correct c => w.get? i == some c
  | .incorrect c => w.contains c && !(w.get? i == some c)
  | .unused c => !(w.get? i == some c)
  | .unchecked _ => false

/-- Propositional reading of the constraint one tile places on a surviving
word: `Correct` fixes the letter at the position, `Incorrect` forbids it
there but requires it somewhere, `Unused` forbids it there; `Unchecked`
never survives constraint application. -/
def tileOK (w : Word) (i : Nat) : Tile → Prop
  | .correct c => w.get? i = some c
  | .incorrect c => (∃ c', w.get? i = some c' ∧ c' ≠ c) ∧ c ∈ w
  | .unused c => ∃ c', w.get? i = some c' ∧ c' ≠ c
  | .unchecked _ => False

/-- Boolean retention test of the global-prune phase: a word survives iff
every `Unused` letter that is not marked is absent from it. -/
def globalPred (tiles : List Tile) (w : Word) : Bool :=
  (unused_chars tiles).all fun c => (marked_tiles tiles).contains c || !(w.contains c)

/-- Modelled from the spec for comparison with `letter_counts` (claim C2):
the number of candidate words containing the letter at least once, each word
contributing at most one. -/
def spec_word_frequency (ws : List Word) (c : Char) : Nat :=
  (ws.filter fun w => w.contains c).length

/-! ### Helper lemmas about the primitives -/

theorem contains_iff (w : Word) (c : Char) : w.contains c = true ↔ c ∈ w :=
  List.elem_iff

theorem get?_isSome_iff (w : Word) (i : Nat) :
    (w.get? i).isSome = true ↔ i < w.length := by
  rw [Option.isSome_iff_ne_none, ne_eq, List.get?_eq_none]
  exact not_le

theorem mem_prune {ws : List Word} {ch : Char} {w : Word} :
    w ∈ prune ws ch ↔ w ∈ ws ∧ ch ∉ w := by
  simp [prune, List.mem_filter]

theorem mem_require {ws : List Word} {ch : Char} {w : Word} :
    w ∈ require ws ch ↔ w ∈ ws ∧ ch ∈ w := by
  simp [require, List.mem_filter]

theorem prune_at_ok_iff {ws : List Word} {ch : Char} {i : Nat} {r : List Word} :
    prune_at ws ch i = .ok r ↔
      ((∀ w ∈ ws, (w.get? i).isSome) ∧
        r = ws.filter fun w => !(w.get? i == some ch)) := by
  unfold prune_at
  split
  · rename_i h
    constructor
    · intro he
      cases he
      exact ⟨h, rfl⟩
    · rintro ⟨-, rfl⟩
      rfl
  · rename_i h
    constructor
    · intro he
      exact Except.noConfusion he
    · rintro ⟨hall, -⟩
      exact absurd hall h

theorem require_at_ok_iff {ws : List Word} {ch : Char} {i : Nat} {r : List Word} :
    require_at ws ch i = .ok r ↔
      ((∀ w ∈ ws, (w.get? i).isSome) ∧
        r = ws.filter fun w => w.get? i == some ch) := by
  unfold require_at
  split
  · rename_i h
    constructor
    · intro he
      cases he
      exact ⟨h, rfl⟩
    · rintro ⟨-, rfl⟩
      rfl
  · rename_i h
    constructor
    · intro he
      exact Except.noConfusion he
    · rintro ⟨hall, -⟩
      exact absurd hall h

theorem cond_prune_eq (m : List Char) (c : Char) :
    ((m.length == 0) || !(m.contains c)) = !(m.contains c) := by
  cases m <;> simp

theorem foldl_prunes (m : List Char) :
    ∀ (cs : List Char) (ws : List Word),
      cs.foldl (fun ws c => if !(m.contains c) then prune ws c else ws) ws
        = ws.filter fun w => cs.all fun c => m.contains c || !(w.contains c)
  | [], ws => by simp
  | c :: cs, ws => by
    simp only [List.foldl_cons]
    cases hc : m.contains c
    · rw [if_pos (show (!false) = true from rfl)]
      rw [foldl_prunes m cs (prune ws c)]
      unfold prune
      rw [List.filter_filter]
      apply List.filter_congr
      intro w _
      rw [List.all_cons, hc]
      simp only [Bool.false_or]
      exact Bool.and_comm _ _
    · rw [if_neg (by exact Bool.false_ne_true)]
      rw [foldl_prunes m cs ws]
      apply List.filter_congr
      intro w _
      rw [List.all_cons, hc]
      simp only [Bool.true_or, Bool.true_and]

theorem applyGlobalPrunes_eq (tiles : List Tile) (ws : List Word) :
    applyGlobalPrunes tiles ws = ws.filter (globalPred tiles) := by
  unfold applyGlobalPrunes globalPred
  rw [show (fun (ws : List Word) (c : Char) =>
        if ((marked_tiles tiles).length == 0) || !((marked_tiles tiles).contains c)
        then prune ws c else ws)
      = fun ws c => if !((marked_tiles tiles).contains c) then prune ws c else ws
    from by funext ws c; rw [cond_prune_eq]]
  exact foldl_prunes (marked_tiles tiles) (unused_chars tiles) ws

theorem contains_eq_false_iff (w : Word) (c : Char) :
    w.contains c = false ↔ c ∉ w := by
  constructor
  · intro h hmem
    rw [(contains_iff w c).mpr hmem] at h
    simp at h
  · intro h
    cases hb : w.contains c
    · rfl
    · exact absurd ((contains_iff w c).mp hb) h

theorem applyTile_ok_iff {ws : List Word} {i : Nat} {t : Tile} {r : List Word} :
    applyTile ws i t = .ok r ↔
      ((∀ c, t ≠ .unchecked c) ∧ (∀ w ∈ ws, (w.get? i).isSome) ∧
        r = ws.filter (tilePred i t)) := by
  cases t with
  | correct c =>
    rw [show applyTile ws i (.correct c) = require_at ws c i from rfl]
    rw [require_at_ok_iff]
    constructor
    · rintro ⟨h1, rfl⟩
      exact ⟨fun c' h => Tile.noConfusion h, h1, rfl⟩
    · rintro ⟨-, h1, rfl⟩
      exact ⟨h1, rfl⟩
  | incorrect c =>
    constructor
    · intro h
      rw [show applyTile ws i (.incorrect c)
          = (match prune_at ws c i with
              | .error e => .error e
              | .ok ws' => .ok (require ws' c)) from rfl] at h
      cases hp : prune_at ws c i with
      | error e =>
        rw [hp] at h
        exact Except.noConfusion h
      | ok ws' =>
        rw [hp] at h
        cases h
        obtain ⟨h1, rfl⟩ := prune_at_ok_iff.mp hp
        refine ⟨fun c' h => Tile.noConfusion h, h1, ?_⟩
        unfold require
        rw [List.filter_filter]
        rfl
    · rintro ⟨-, h1, rfl⟩
      rw [show applyTile ws i (.incorrect c)
          = (match prune_at ws c i with
              | .error e => .error e
              | .ok ws' => .ok (require ws' c)) from rfl]
      rw [prune_at_ok_iff.mpr ⟨h1, rfl⟩]
      show Except.ok (require (List.filter (fun w => !(w.get? i == some c)) ws) c)
          = Except.ok (List.filter (tilePred i (Tile.incorrect c)) ws)
      unfold require
      rw [List.filter_filter]
      rfl
  | unused c =>
    rw [show applyTile ws i (.unused c) = prune_at ws c i from rfl]
    rw [prune_at_ok_iff]
    constructor
    · rintro ⟨h1, rfl⟩
      exact ⟨fun c' h => Tile.noConfusion h, h1, rfl⟩
    · rintro ⟨-, h1, rfl⟩
      exact ⟨h1, rfl⟩
  | unchecked c =>
    constructor
    · intro h
      exact Except.noConfusion h
    · rintro ⟨hno, -, -⟩
      exact absurd rfl (hno c)

theorem applyPositions_ok_eq :
    ∀ {pts : List (Nat × Tile)} {ws r : List Word},
      applyPositions pts ws = .ok r →
      r = ws.filter fun w => pts.all fun p => tilePred p.1 p.2 w := by
  intro pts
  induction pts with
  | nil =>
    intro ws r h
    cases h
    simp
  | cons p rest ih =>
    intro ws r h
    obtain ⟨i, t⟩ := p
    rw [show applyPositions ((i, t) :: rest) ws
        = (match applyTile ws i t with
            | .error e => .error e
            | .ok ws' => applyPositions rest ws') from rfl] at h
    cases ht : applyTile ws i t with
    | error e =>
      rw [ht] at h
      exact Except.noConfusion h
    | ok ws' =>
      rw [ht] at h
      obtain ⟨-, -, rfl⟩ := applyTile_ok_iff.mp ht
      rw [ih h, List.filter_filter]
      apply List.filter_congr
      intro w _
      rw [List.all_cons]
      exact Bool.and_comm _ _

theorem applyPositions_total_mono :
    ∀ {pts : List (Nat × Tile)} {ws ws₀ r : List Word},
      (∀ w ∈ ws₀, w ∈ ws) →
      applyPositions pts ws = .ok r →
      ∃ r₀, applyPositions pts ws₀ = .ok r₀ := by
  intro pts
  induction pts with
  | nil =>
    intro ws ws₀ r _ _
    exact ⟨ws₀, rfl⟩
  | cons p rest ih =>
    intro ws ws₀ r hsub h
    obtain ⟨i, t⟩ := p
    rw [show applyPositions ((i, t) :: rest) ws
        = (match applyTile ws i t with
            | .error e => .error e
            | .ok ws' => applyPositions rest ws') from rfl] at h
    cases ht : applyTile ws i t with
    | error e =>
      rw [ht] at h
      exact Except.noConfusion h
    | ok ws' =>
      rw [ht] at h
      obtain ⟨hno, hsome, rfl⟩ := applyTile_ok_iff.mp ht
      have ht₀ : applyTile ws₀ i t = .ok (ws₀.filter (tilePred i t)) :=
        applyTile_ok_iff.mpr ⟨hno, fun w hw => hsome w (hsub w hw), rfl⟩
      obtain ⟨r₀, hr₀⟩ := ih
        (fun w hw => by
          rcases List.mem_filter.mp hw with ⟨hw₁, hw₂⟩
          exact List.mem_filter.mpr ⟨hsub w hw₁, hw₂⟩)
        h
      refine ⟨r₀, ?_⟩
      rw [show applyPositions ((i, t) :: rest) ws₀
          = (match applyTile ws₀ i t with
              | .error e => .error e
              | .ok ws' => applyPositions rest ws') from rfl]
      rw [ht₀]
      exact hr₀

theorem applyPositions_isSome_of_mem :
    ∀ {pts : List (Nat × Tile)} {ws r : List Word},
      applyPositions pts ws = .ok r →
      ∀ w ∈ r, ∀ p ∈ pts, (w.get? p.1).isSome := by
  intro pts
  induction pts with
  | nil =>
    intro ws r _ w _ p hp
    exact absurd hp (List.not_mem_nil p)
  | cons q rest ih =>
    intro ws r h w hw p hp
    obtain ⟨i, t⟩ := q
    rw [show applyPositions ((i, t) :: rest) ws
        = (match applyTile ws i t with
            | .error e => .error e
            | .ok ws' => applyPositions rest ws') from rfl] at h
    cases ht : applyTile ws i t with
    | error e =>
      rw [ht] at h
      exact Except.noConfusion h
    | ok ws' =>
      rw [ht] at h
      obtain ⟨-, hsome, rfl⟩ := applyTile_ok_iff.mp ht
      rcases List.mem_cons.mp hp with hp | hp
      · subst hp
        have hw' : w ∈ ws.filter (tilePred i t) := by
          have := applyPositions_ok_eq h
          subst this
          exact List.filter_subset' _ hw
        exact hsome w (List.filter_subset' _ hw')
      · exact ih h w hw p hp

theorem applyPositions_no_unchecked :
    ∀ {pts : List (Nat × Tile)} {ws r : List Word},
      applyPositions pts ws = .ok r →
      ∀ p ∈ pts, ∀ c, p.2 ≠ Tile.unchecked c := by
  intro pts
  induction pts with
  | nil =>
    intro ws r _ p hp
    exact absurd hp (List.not_mem_nil p)
  | cons q rest ih =>
    intro ws r h p hp
    obtain ⟨i, t⟩ := q
    rw [show applyPositions ((i, t) :: rest) ws
        = (match applyTile ws i t with
            | .error e => .error e
            | .ok ws' => applyPositions rest ws') from rfl] at h
    cases ht : applyTile ws i t with
    | error e =>
      rw [ht] at h
      exact Except.noConfusion h
    | ok ws' =>
      rw [ht] at h
      rcases List.mem_cons.mp hp with hp | hp
      · subst hp
        exact (applyTile_ok_iff.mp ht).1
      · exact ih h p hp

theorem tileOK_isSome {w : Word} {i : Nat} {t : Tile} (h : tileOK w i t) :
    (w.get? i).isSome := by
  cases t with
  | correct c =>
    rw [show tileOK w i (.correct c) = (w.get? i = some c) from rfl] at h
    rw [h]
    rfl
  | incorrect c =>
    obtain ⟨⟨c', hc', -⟩, -⟩ := h
    rw [hc']
    rfl
  | unused c =>
    obtain ⟨c', hc', -⟩ := h
    rw [hc']
    rfl
  | unchecked c => exact h.elim

theorem tilePred_iff {w : Word} {i : Nat} {t : Tile} (h : (w.get? i).isSome) :
    tilePred i t w = true ↔ tileOK w i t := by
  obtain ⟨c₀, hc₀⟩ := Option.isSome_iff_exists.mp h
  cases t with
  | correct c =>
    show (w.get? i == some c) = true ↔ w.get? i = some c
    exact beq_iff_eq
  | incorrect c =>
    show (w.contains c && !(w.get? i == some c)) = true ↔
      (∃ c', w.get? i = some c' ∧ c' ≠ c) ∧ c ∈ w
    rw [hc₀]
    constructor
    · intro hb
      obtain ⟨hb1, hb2⟩ := (Bool.and_eq_true _ _).mp hb
      refine ⟨⟨c₀, rfl, ?_⟩, (contains_iff w c).mp hb1⟩
      intro heq
      rw [heq] at hb2
      simp at hb2
    · rintro ⟨⟨c', hc', hne⟩, hcw⟩
      obtain rfl : c₀ = c' := Option.some.inj hc'
      refine (Bool.and_eq_true _ _).mpr ⟨(contains_iff w c).mpr hcw, ?_⟩
      simp [hne]
  | unused c =>
    show (!(w.get? i == some c)) = true ↔ ∃ c', w.get? i = some c' ∧ c' ≠ c
    rw [hc₀]
    constructor
    · intro hb
      refine ⟨c₀, rfl, ?_⟩
      intro heq
      rw [heq] at hb
      simp at hb
    · rintro ⟨c', hc', hne⟩
      obtain rfl : c₀ = c' := Option.some.inj hc'
      simp [hne]
  | unchecked c =>
    show false = true ↔ False
    simp

theorem tilePred_of_tileOK {w : Word} {i : Nat} {t : Tile} (h : tileOK w i t) :
    tilePred i t w = true :=
  (tilePred_iff (tileOK_isSome h)).mpr h

theorem globalPred_iff {tiles : List Tile} {w : Word} :
    globalPred tiles w = true ↔
      ∀ c ∈ unused_chars tiles, c ∉ marked_tiles tiles → c ∉ w := by
  unfold globalPred
  rw [List.all_eq_true]
  constructor
  · intro h c hcu hcm hcw
    rcases (Bool.or_eq_true _ _).mp (h c hcu) with h1 | h2
    · exact hcm ((contains_iff _ c).mp h1)
    · exact (contains_eq_false_iff w c).mp ((Bool.not_eq_true' _).mp h2) hcw
  · intro h c hcu
    by_cases hm : c ∈ marked_tiles tiles
    · exact (Bool.or_eq_true _ _).mpr (Or.inl ((contains_iff _ c).mpr hm))
    · exact (Bool.or_eq_true _ _).mpr (Or.inr
        ((Bool.not_eq_true' _).mpr ((contains_eq_false_iff w c).mpr (h c hcu hm))))

/-! ### Claim theorems -/

/-- Claim C1: within one guess, a letter of an `Unused` tile is globally
pruned only if it appears in no `Correct`/`Incorrect` tile of the same guess.
The global-prune phase of constraint application removes exactly the words
containing some unused letter that is outside the marked-letters set
(`marked_tiles`, computed from the whole tile sequence before any `Unused`
tile is processed); membership of a word is never constrained by an `Unused`
letter that is also marked, so such a letter is only ever position-pruned by
the later per-position phase. -/
theorem global_prune_skips_marked (tiles : List Tile) (ws : List Word) (w : Word) :
    w ∈ applyGlobalPrunes tiles ws ↔
      (w ∈ ws ∧ ∀ c ∈ unused_chars tiles, c ∉ marked_tiles tiles → c ∉ w) := by
  rw [applyGlobalPrunes_eq, List.mem_filter, globalPred_iff]

/-- Claim C7: each predicate primitive is a pure filter with exactly the
stated retention condition: `require_at` keeps the words whose letter at the
position equals the character, `prune_at` those whose letter there differs,
`require` those containing the character anywhere, `prune` those not
containing it anywhere (the position primitives return their filtered set
whenever they do not abort). -/
theorem primitive_retention (ws : List Word) (ch : Char) (i : Nat) (w : Word) :
    (w ∈ prune ws ch ↔ w ∈ ws ∧ ch ∉ w) ∧
    (w ∈ require ws ch ↔ w ∈ ws ∧ ch ∈ w) ∧
    (∀ r, require_at ws ch i = .ok r →
      (w ∈ r ↔ w ∈ ws ∧ w.get? i = some ch)) ∧
    (∀ r, prune_at ws ch i = .ok r →
      (w ∈ r ↔ w ∈ ws ∧ ∃ c', w.get? i = some c' ∧ c' ≠ ch)) := by
  refine ⟨mem_prune, mem_require, ?_, ?_⟩
  · intro r hr
    obtain ⟨-, rfl⟩ := require_at_ok_iff.mp hr
    rw [List.mem_filter]
    constructor
    · rintro ⟨hw, hb⟩
      exact ⟨hw, beq_iff_eq.mp hb⟩
    · rintro ⟨hw, hb⟩
      exact ⟨hw, beq_iff_eq.mpr hb⟩
  · intro r hr
    obtain ⟨hsome, rfl⟩ := prune_at_ok_iff.mp hr
    rw [List.mem_filter]
    constructor
    · rintro ⟨hw, hb⟩
      obtain ⟨c₀, hc₀⟩ := Option.isSome_iff_exists.mp (hsome w hw)
      refine ⟨hw, c₀, hc₀, ?_⟩
      intro heq
      rw [hc₀, heq] at hb
      simp at hb
    · rintro ⟨hw, c', hc', hne⟩
      refine ⟨hw, ?_⟩
      rw [hc']
      simp [hne]

/-- Witness for `primitive_retention` at a concrete input: pruning `'a'` at
position `0` from the two-word set keeps exactly the word whose first letter
differs from `'a'`. -/
theorem primitive_retention_witness :
    (['c','d'] : Word) ∈ [(['a','b'] : Word), ['c','d']] ∧
      ∃ c', (['c','d'] : Word).get? 0 = some c' ∧ c' ≠ 'a' :=
  ((primitive_retention [['a','b'], ['c','d']] 'a' 0 ['c','d']).2.2.2
      [['c','d']] rfl).mp (by decide)

/-- Claim C8: the candidate set only shrinks: each of the four primitives,
and full constraint application of a tile sequence, yields a subset of the
input set with no greater size. -/
theorem candidate_set_monotone (ws : List Word) (ch : Char) (i : Nat)
    (tiles : List Tile) :
    (prune ws ch ⊆ ws ∧ (prune ws ch).length ≤ ws.length) ∧
    (require ws ch ⊆ ws ∧ (require ws ch).length ≤ ws.length) ∧
    (∀ r, prune_at ws ch i = .ok r → r ⊆ ws ∧ r.length ≤ ws.length) ∧
    (∀ r, require_at ws ch i = .ok r → r ⊆ ws ∧ r.length ≤ ws.length) ∧
    (∀ r, applyTiles tiles ws = .ok r → r ⊆ ws ∧ r.length ≤ ws.length) := by
  refine ⟨⟨List.filter_subset' ws, List.length_filter_le _ ws⟩,
    ⟨List.filter_subset' ws, List.length_filter_le _ ws⟩, ?_, ?_, ?_⟩
  · intro r hr
    obtain ⟨-, rfl⟩ := prune_at_ok_iff.mp hr
    exact ⟨List.filter_subset' ws, List.length_filter_le _ ws⟩
  · intro r hr
    obtain ⟨-, rfl⟩ := require_at_ok_iff.mp hr
    exact ⟨List.filter_subset' ws, List.length_filter_le _ ws⟩
  · intro r hr
    unfold applyTiles at hr
    have h1 := applyPositions_ok_eq hr
    rw [applyGlobalPrunes_eq] at h1
    subst h1
    constructor
    · exact fun w hw =>
        List.filter_subset' ws (List.filter_subset' _ hw)
    · exact le_trans (List.length_filter_le _ _) (List.length_filter_le _ ws)

/-- Witness for `candidate_set_monotone` at a concrete input: one `Correct`
tile on a two-word set keeps a subset of no greater size. -/
theorem candidate_set_monotone_witness :
    [(['a','b'] : Word)] ⊆ [(['a','b'] : Word), ['c','d']] ∧
      ([(['a','b'] : Word)]).length ≤ ([(['a','b'] : Word), ['c','d']]).length :=
  (candidate_set_monotone [['a','b'], ['c','d']] 'z' 0
      [Tile.correct 'a']).2.2.2.2 [['a','b']] rfl

/-- Claim C10: when every word of the set has length at least `i + 1`, the
position primitives are total: the per-word `nth(idx).unwrap()` inside
`prune_at`/`require_at` cannot hit `None`, so both return an `ok` set. -/
theorem position_filters_total (ws : List Word) (ch : Char) (i : Nat)
    (h : ∀ w ∈ ws, i + 1 ≤ w.length) :
    (∃ r, prune_at ws ch i = .ok r) ∧ (∃ r, require_at ws ch i = .ok r) := by
  have hs : ∀ w ∈ ws, (w.get? i).isSome :=
    fun w hw => (get?_isSome_iff w i).mpr (h w hw)
  exact ⟨⟨_, prune_at_ok_iff.mpr ⟨hs, rfl⟩⟩, ⟨_, require_at_ok_iff.mpr ⟨hs, rfl⟩⟩⟩

/-- Witness for `position_filters_total` at a concrete input: on a set of
two-letter words, position `1` is always present. -/
theorem position_filters_total_witness :
    (∃ r, prune_at [(['a','b'] : Word), ['c','d']] 'z' 1 = .ok r) ∧
      ∃ r, require_at [(['a','b'] : Word), ['c','d']] 'z' 1 = .ok r :=
  position_filters_total [['a','b'], ['c','d']] 'z' 1 (by decide)

/-- Claim C6: constraint application composes the predicate primitives per
tile: a surviving word is exactly a word of the input set that satisfies the
global-prune condition for unmarked `Unused` letters and, at every tile
position, the retention condition of the primitives that tile induces —
`require_at` for `Correct`, `prune_at` together with `require` for
`Incorrect`, and `prune_at` for `Unused` (`tileOK` spells out exactly those
three retention conditions). -/
theorem applyTiles_composes_primitives (tiles : List Tile) (ws ws' : List Word)
    (h : applyTiles tiles ws = .ok ws') (w : Word) :
    w ∈ ws' ↔
      (w ∈ ws ∧ (∀ c ∈ unused_chars tiles, c ∉ marked_tiles tiles → c ∉ w) ∧
        ∀ i t, tiles.get? i = some t → tileOK w i t) := by
  unfold applyTiles at h
  have hpos := applyPositions_ok_eq h
  have hsome := applyPositions_isSome_of_mem h
  rw [applyGlobalPrunes_eq] at hpos
  constructor
  · intro hw
    have hw' := hpos ▸ hw
    rcases List.mem_filter.mp hw' with ⟨hwg, hA⟩
    rcases List.mem_filter.mp hwg with ⟨hws, hg⟩
    refine ⟨hws, globalPred_iff.mp hg, ?_⟩
    intro i t hit
    have hmem : (i, t) ∈ tiles.enum := List.mk_mem_enum_iff_get?.mpr hit
    have hps : (w.get? i).isSome := hsome w hw (i, t) hmem
    exact (tilePred_iff hps).mp (List.all_eq_true.mp hA (i, t) hmem)
  · rintro ⟨hws, hg, hOK⟩
    rw [hpos]
    refine List.mem_filter.mpr
      ⟨List.mem_filter.mpr ⟨hws, globalPred_iff.mpr hg⟩, ?_⟩
    apply List.all_eq_true.mpr
    rintro ⟨i, t⟩ hp
    exact tilePred_of_tileOK (hOK i t (List.mk_mem_enum_iff_get?.mp hp))

/-- Witness for `applyTiles_composes_primitives`: a guess with one `Correct`
and one `Unused` tile on a three-word set keeps exactly the word with the
correct letter in place and without the unused letter. -/
theorem applyTiles_composes_primitives_witness :
    (['a','c'] : Word) ∈ [(['a','c'] : Word), ['a','b'], ['b','c']] ∧
      (∀ c ∈ unused_chars [Tile.correct 'a', Tile.unused 'b'],
        c ∉ marked_tiles [Tile.correct 'a', Tile.unused 'b'] →
          c ∉ (['a','c'] : Word)) ∧
      ∀ i t, [Tile.correct 'a', Tile.unused 'b'].get? i = some t →
        tileOK ['a','c'] i t :=
  (applyTiles_composes_primitives [Tile.correct 'a', Tile.unused 'b']
      [['a','c'], ['a','b'], ['b','c']] [['a','c']] rfl ['a','c']).mp
    (by decide)

/-- Claim C9: constraint application is idempotent: if applying a tile
sequence to a candidate set succeeds and yields a set, applying the same
tile sequence to that result succeeds and yields it unchanged. -/
theorem applyTiles_idempotent (tiles : List Tile) (ws ws' : List Word)
    (h : applyTiles tiles ws = .ok ws') :
    applyTiles tiles ws' = .ok ws' := by
  unfold applyTiles at h ⊢
  have hpos := applyPositions_ok_eq h
  rw [applyGlobalPrunes_eq] at h hpos ⊢
  have hgw : ∀ w ∈ ws', globalPred tiles w = true := by
    intro w hw
    rw [hpos] at hw
    exact (List.mem_filter.mp (List.filter_subset' _ hw)).2
  rw [List.filter_eq_self.mpr hgw]
  have hsub : ∀ w ∈ ws', w ∈ ws.filter (globalPred tiles) := by
    intro w hw
    rw [hpos] at hw
    exact List.filter_subset' _ hw
  obtain ⟨r₀, hr₀⟩ := applyPositions_total_mono hsub h
  have hAll : ∀ w ∈ ws', (tiles.enum.all fun p => tilePred p.1 p.2 w) = true := by
    intro w hw
    rw [hpos] at hw
    exact (List.mem_filter.mp hw).2
  rw [hr₀, applyPositions_ok_eq hr₀, List.filter_eq_self.mpr hAll]

/-- Witness for `applyTiles_idempotent`: re-applying a `Correct`-tile guess
to its own output changes nothing. -/
theorem applyTiles_idempotent_witness :
    applyTiles [Tile.correct 'a'] [(['a','b'] : Word)] = .ok [['a','b']] :=
  applyTiles_idempotent [Tile.correct 'a'] [['a','b'], ['c','b']] [['a','b']] rfl

theorem letter_counts_pos_of_mem {ws : List Word} {w : Word} {c : Char}
    (hw : w ∈ ws) (hc : c ∈ w) : 0 < letter_counts ws c := by
  unfold letter_counts
  exact List.count_pos_iff.mpr (List.mem_flatten.mpr ⟨w, hw, hc⟩)

theorem recommend_fold_spec (f : Word → Nat) :
    ∀ (l : List Word) (m : Word),
      ∃ r,
        l.foldl
            (fun acc w =>
              match acc with
              | none => some w
              | some m' => if f w < f m' then some m' else some w)
            (some m) = some r ∧
          (r = m ∨ r ∈ l) ∧ f m ≤ f r ∧ ∀ w ∈ l, f w ≤ f r
  | [], m => ⟨m, rfl, Or.inl rfl, le_refl _, fun w hw => absurd hw (List.not_mem_nil w)⟩
  | w :: l, m => by
    rw [List.foldl_cons]
    by_cases hlt : f w < f m
    · rw [show (match some m with
          | none => some w
          | some m' => if f w < f m' then some m' else some w)
          = if f w < f m then some m else some w from rfl]
      rw [if_pos hlt]
      obtain ⟨r, hr, hrm, hmr, hall⟩ := recommend_fold_spec f l m
      refine ⟨r, hr, ?_, hmr, ?_⟩
      · rcases hrm with hrm | hrm
        · exact Or.inl hrm
        · exact Or.inr (List.mem_cons_of_mem w hrm)
      · intro w' hw'
        rcases List.mem_cons.mp hw' with rfl | hw'
        · exact le_trans (le_of_lt hlt) hmr
        · exact hall w' hw'
    · rw [show (match some m with
          | none => some w
          | some m' => if f w < f m' then some m' else some w)
          = if f w < f m then some m else some w from rfl]
      rw [if_neg hlt]
      obtain ⟨r, hr, hrm, hwr, hall⟩ := recommend_fold_spec f l w
      refine ⟨r, hr, ?_, le_trans (le_of_not_lt hlt) hwr, ?_⟩
      · rcases hrm with hrm | hrm
        · exact Or.inr (hrm ▸ List.mem_cons_self w l)
        · exact Or.inr (List.mem_cons_of_mem w hrm)
      · intro w' hw'
        rcases List.mem_cons.mp hw' with rfl | hw'
        · exact hwr
        · exact hall w' hw'

theorem recommend_spec (ws : List Word) (h : ws ≠ []) :
    ∃ r, recommend ws = some r ∧ r ∈ ws ∧
      ∀ w ∈ ws, score w (letter_counts ws) ≤ score r (letter_counts ws) := by
  cases ws with
  | nil => exact absurd rfl h
  | cons w l =>
    obtain ⟨r, hr, hrm, hwle, hall⟩ :=
      recommend_fold_spec (fun w' => score w' (letter_counts (w :: l))) l w
    refine ⟨r, ?_, ?_, ?_⟩
    · unfold recommend
      rw [List.foldl_cons]
      exact hr
    · rcases hrm with rfl | hrm
      · exact List.mem_cons_self r l
      · exact List.mem_cons_of_mem w hrm
    · intro w' hw'
      rcases List.mem_cons.mp hw' with rfl | hw'
      · exact hwle
      · exact hall w' hw'

/-- Claim C3: on a non-empty candidate set, the recommendation is a member
of the set and maximizes, over all members, the sum over its letters
(counting repeats) of that letter's entry in the letter-frequency table
computed from the same set. -/
theorem recommend_member_maximal (ws : List Word) (h : ws ≠ []) :
    ∃ r, recommend ws = some r ∧ r ∈ ws ∧
      ∀ w ∈ ws, score w (letter_counts ws) ≤ score r (letter_counts ws) :=
  recommend_spec ws h

/-- Witness for `recommend_member_maximal`: on a concrete three-word set the
recommendation exists, lies in the set and scores at least every member. -/
theorem recommend_member_maximal_witness :
    ∃ r, recommend [(['a','b'] : Word), ['b','b'], ['b','a']] = some r ∧
      r ∈ [(['a','b'] : Word), ['b','b'], ['b','a']] ∧
      ∀ w ∈ [(['a','b'] : Word), ['b','b'], ['b','a']],
        score w (letter_counts [['a','b'], ['b','b'], ['b','a']]) ≤
          score r (letter_counts [['a','b'], ['b','b'], ['b','a']]) :=
  recommend_member_maximal [['a','b'], ['b','b'], ['b','a']] (by decide)

/-- Claim C4 counterexample: requesting a recommendation on the empty
candidate set does not signal a recoverable typed error — the source has no
`EmptyCandidateSet` value at all; it aborts the process through
`unwrap_or_else(|| panic!("Empty wordlist"))`, embedded as the `panicked`
outcome. -/
theorem recommendation_empty_cex :
    recommendation [] = .panicked "Empty wordlist" := rfl

/-- Claim C4 (amended): requesting a recommendation when the candidate set
is empty panics the process with the message `Empty wordlist` instead of
returning a typed error; on a non-empty set the recommendation step returns
a member of the set. -/
theorem recommendation_empty_panics (ws : List Word) :
    (ws = [] → recommendation ws = .panicked "Empty wordlist") ∧
    (ws ≠ [] → ∃ w, recommendation ws = .ok w ∧ w ∈ ws) := by
  constructor
  · rintro rfl
    rfl
  · intro h
    obtain ⟨r, hr, hrm, -⟩ := recommend_spec ws h
    refine ⟨r, ?_, hrm⟩
    unfold recommendation
    rw [hr]

/-- Witness for `recommendation_empty_panics` at concrete inputs: the empty
set panics, a singleton set yields its unique member. -/
theorem recommendation_empty_panics_witness :
    recommendation [] = .panicked "Empty wordlist" ∧
      ∃ w, recommendation [(['a'] : Word)] = .ok w ∧ w ∈ [(['a'] : Word)] :=
  ⟨(recommendation_empty_panics []).1 rfl,
    (recommendation_empty_panics [['a']]).2 (by decide)⟩

/-- Claim C2 counterexample: the letter-frequency table does not count the
words containing a letter at least once — on the single word `see`, the
entry of `e` is `2` (its occurrence count), while only one word contains
`e`. -/
theorem letter_counts_cex :
    letter_counts [['s','e','e']] 'e' = 2 ∧
      spec_word_frequency [['s','e','e']] 'e' = 1 ∧
      letter_counts [['s','e','e']] 'e' ≠ spec_word_frequency [['s','e','e']] 'e' := by
  refine ⟨rfl, rfl, ?_⟩
  decide

/-- Claim C2 (amended): the letter-frequency table maps each letter to the
total number of its occurrences summed over all words of the current
candidate set — a word with several occurrences of the letter contributes
each of them — rather than to the number of words containing it at least
once. (The table is a pure function of the current set, so it is recomputed
from the set after every mutation.) -/
theorem letter_counts_sums_occurrences (ws : List Word) (c : Char) :
    letter_counts ws c = (ws.map fun w => w.count c).sum :=
  List.count_flatten c ws

theorem classifyPass_length {mk : Char → Tile} :
    ∀ {idxs : List Nat} {tiles tiles' : List Tile},
      classifyPass mk tiles idxs = .ok tiles' → tiles'.length = tiles.length
  | [], _, _, h => by cases h; rfl
  | i :: rest, tiles, tiles', h => by
    rw [show classifyPass mk tiles (i :: rest)
        = (match tiles.get? i with
            | none => (.error .indexOutOfBounds : Except Panic (List Tile))
            | some (.unchecked c) => classifyPass mk (tiles.set i (mk c)) rest
            | some _ => .error .unreachableHit) from rfl] at h
    cases hg : tiles.get? i with
    | none =>
      rw [hg] at h
      exact Except.noConfusion h
    | some t =>
      rw [hg] at h
      cases t with
      | unchecked c =>
        have hlen := classifyPass_length h
        rw [hlen, List.length_set]
      | correct c => exact Except.noConfusion h
      | incorrect c => exact Except.noConfusion h
      | unused c => exact Except.noConfusion h

theorem classifyPass_err (mk : Char → Tile) :
    ∀ {idxs : List Nat} {tiles : List Tile} {j : Nat}, j ∈ idxs →
      (tiles.get? j = none ∨ ∃ t, tiles.get? j = some t ∧ t.isUnchecked = false) →
      ∃ e, classifyPass mk tiles idxs = .error e
  | [], _, j, hj, _ => absurd hj (List.not_mem_nil j)
  | i :: rest, tiles, j, hj, hbad => by
    cases hg : tiles.get? i with
    | none =>
      exact ⟨.indexOutOfBounds, by
        rw [show classifyPass mk tiles (i :: rest)
            = (match tiles.get? i with
                | none => (.error .indexOutOfBounds : Except Panic (List Tile))
                | some (.unchecked c) => classifyPass mk (tiles.set i (mk c)) rest
                | some _ => .error .unreachableHit) from rfl, hg]⟩
    | some t =>
      cases t with
      | unchecked c =>
        have hne : j ≠ i := by
          rintro rfl
          rcases hbad with hb | ⟨t', ht', hu⟩
          · rw [hg] at hb
            exact Option.noConfusion hb
          · rw [hg] at ht'
            obtain rfl : Tile.unchecked c = t' := Option.some.inj ht'
            exact Bool.noConfusion hu
        have hj' : j ∈ rest := by
          rcases List.mem_cons.mp hj with h | h
          · exact absurd h hne
          · exact h
        have hset : (tiles.set i (mk c)).get? j = tiles.get? j :=
          List.get?_set_ne (mk c) tiles (fun hh => hne hh.symm)
        obtain ⟨e, he⟩ := classifyPass_err mk hj' (by rw [hset]; exact hbad)
        exact ⟨e, by
          rw [show classifyPass mk tiles (i :: rest)
              = (match tiles.get? i with
                  | none => (.error .indexOutOfBounds : Except Panic (List Tile))
                  | some (.unchecked c) => classifyPass mk (tiles.set i (mk c)) rest
                  | some _ => .error .unreachableHit) from rfl, hg]
          exact he⟩
      | correct c =>
        exact ⟨.unreachableHit, by
          rw [show classifyPass mk tiles (i :: rest)
              = (match tiles.get? i with
                  | none => (.error .indexOutOfBounds : Except Panic (List Tile))
                  | some (.unchecked c) => classifyPass mk (tiles.set i (mk c)) rest
                  | some _ => .error .unreachableHit) from rfl, hg]⟩
      | incorrect c =>
        exact ⟨.unreachableHit, by
          rw [show classifyPass mk tiles (i :: rest)
              = (match tiles.get? i with
                  | none => (.error .indexOutOfBounds : Except Panic (List Tile))
                  | some (.unchecked c) => classifyPass mk (tiles.set i (mk c)) rest
                  | some _ => .error .unreachableHit) from rfl, hg]⟩
      | unused c =>
        exact ⟨.unreachableHit, by
          rw [show classifyPass mk tiles (i :: rest)
              = (match tiles.get? i with
                  | none => (.error .indexOutOfBounds : Except Panic (List Tile))
                  | some (.unchecked c) => classifyPass mk (tiles.set i (mk c)) rest
                  | some _ => .error .unreachableHit) from rfl, hg]⟩

theorem classifyPass_stable {mk : Char → Tile} :
    ∀ (idxs : List Nat) (tiles tiles' : List Tile) (j : Nat) (t : Tile),
      classifyPass mk tiles idxs = .ok tiles' →
      tiles.get? j = some t → t.isUnchecked = false →
      tiles'.get? j = some t := by
  intro idxs
  induction idxs with
  | nil =>
    intro tiles tiles' j t h hj _
    cases h
    exact hj
  | cons i rest ih =>
    intro tiles tiles' j t h hj hu
    rw [show classifyPass mk tiles (i :: rest)
        = (match tiles.get? i with
            | none => (.error .indexOutOfBounds : Except Panic (List Tile))
            | some (.unchecked c) => classifyPass mk (tiles.set i (mk c)) rest
            | some _ => .error .unreachableHit) from rfl] at h
    cases hg : tiles.get? i with
    | none =>
      rw [hg] at h
      exact Except.noConfusion h
    | some t₀ =>
      rw [hg] at h
      cases t₀ with
      | unchecked c =>
        have hne : j ≠ i := by
          rintro rfl
          rw [hg] at hj
          obtain rfl : Tile.unchecked c = t := Option.some.inj hj
          exact Bool.noConfusion hu
        have hset : (tiles.set i (mk c)).get? j = tiles.get? j :=
          List.get?_set_ne (mk c) tiles (fun hh => hne hh.symm)
        exact ih _ _ _ _ h (by rw [hset]; exact hj) hu
      | correct c => exact Except.noConfusion h
      | incorrect c => exact Except.noConfusion h
      | unused c => exact Except.noConfusion h

theorem classifyPass_writes (mk : Char → Tile) (hmk : ∀ c, (mk c).isUnchecked = false) :
    ∀ (idxs : List Nat) (tiles tiles' : List Tile) (j : Nat),
      classifyPass mk tiles idxs = .ok tiles' →
      j ∈ idxs → ∃ c, tiles'.get? j = some (mk c) := by
  intro idxs
  induction idxs with
  | nil =>
    intro tiles tiles' j _ hj
    exact absurd hj (List.not_mem_nil j)
  | cons i rest ih =>
    intro tiles tiles' j h hj
    rw [show classifyPass mk tiles (i :: rest)
        = (match tiles.get? i with
            | none => (.error .indexOutOfBounds : Except Panic (List Tile))
            | some (.unchecked c) => classifyPass mk (tiles.set i (mk c)) rest
            | some _ => .error .unreachableHit) from rfl] at h
    cases hg : tiles.get? i with
    | none =>
      rw [hg] at h
      exact Except.noConfusion h
    | some t₀ =>
      rw [hg] at h
      cases t₀ with
      | unchecked c =>
        by_cases hji : j = i
        · subst hji
          have hset : (tiles.set j (mk c)).get? j = some (mk c) := by
            rw [List.get?_set_eq, hg]
            rfl
          exact ⟨c, classifyPass_stable rest _ _ _ _ h hset (hmk c)⟩
        · have hj' : j ∈ rest := by
            rcases List.mem_cons.mp hj with h' | h'
            · exact absurd h' hji
            · exact h'
          exact ih _ _ _ h hj'
      | correct c => exact Except.noConfusion h
      | incorrect c => exact Except.noConfusion h
      | unused c => exact Except.noConfusion h

theorem classify_err_of_violation (guess : Word) (cor inc : List Nat)
    (h : (∃ j, (j ∈ cor ∨ j ∈ inc) ∧ guess.length ≤ j) ∨ ∃ j, j ∈ cor ∧ j ∈ inc) :
    ∃ e, classify guess cor inc = .error e := by
  unfold classify
  rcases h with ⟨j, hj, hlen⟩ | ⟨j, hjc, hji⟩
  · have hnone : (guess.map Tile.unchecked).get? j = none := by
      rw [List.get?_eq_none, List.length_map]
      exact hlen
    rcases hj with hj | hj
    · obtain ⟨e, he⟩ := classifyPass_err Tile.correct hj (Or.inl hnone)
      exact ⟨e, by rw [he]⟩
    · cases h1 : classifyPass Tile.correct (guess.map Tile.unchecked) cor with
      | error e => exact ⟨e, rfl⟩
      | ok t₁ =>
        have hnone1 : t₁.get? j = none := by
          rw [List.get?_eq_none, classifyPass_length h1, List.length_map]
          exact hlen
        obtain ⟨e, he⟩ := classifyPass_err Tile.incorrect hj (Or.inl hnone1)
        refine ⟨e, ?_⟩
        show (match classifyPass Tile.incorrect t₁ inc with
          | Except.error e => Except.error e
          | Except.ok t₂ =>
            Except.ok (t₂.map fun t => match t with
              | Tile.unchecked c => Tile.unused c
              | t => t)) = Except.error e
        rw [he]
  · cases h1 : classifyPass Tile.correct (guess.map Tile.unchecked) cor with
    | error e => exact ⟨e, rfl⟩
    | ok t₁ =>
      obtain ⟨c, hc⟩ := classifyPass_writes Tile.correct (fun _ => rfl) cor _ _ j h1 hjc
      obtain ⟨e, he⟩ :=
        classifyPass_err Tile.incorrect hji (Or.inr ⟨Tile.correct c, hc, rfl⟩)
      refine ⟨e, ?_⟩
      show (match classifyPass Tile.incorrect t₁ inc with
        | Except.error e => Except.error e
        | Except.ok t₂ =>
          Except.ok (t₂.map fun t => match t with
            | Tile.unchecked c => Tile.unused c
            | t => t)) = Except.error e
      rw [he]

/-- Claim C5 counterexample: contract-violating index sets do not produce
the recoverable typed errors `IndexOutOfRange`/`ConflictingClassification`
(no such values exist in the source); an out-of-range index hits the
out-of-bounds panic of `tiles[i]`, and an index claimed by both sets hits
the `unreachable!()` panic, both of which abort the process. -/
theorem classify_violation_cex :
    classify ['a','b','c'] [5] [] = .error .indexOutOfBounds ∧
      classify ['a','b','c'] [0] [0] = .error .unreachableHit :=
  ⟨rfl, rfl⟩

/-- Claim C5 (amended): a guess whose index sets violate the contract —
some index at or beyond the guess length, or some index in both sets —
makes tile classification abort with a panic (index out of bounds or
`unreachable!()`), terminating the process; the whole guess processing
aborts with the same panic, so no mutation of the candidate set has
happened. -/
theorem classify_violation_aborts (guess : Word) (cor inc : List Nat)
    (ws : List Word)
    (h : (∃ j, (j ∈ cor ∨ j ∈ inc) ∧ guess.length ≤ j) ∨ ∃ j, j ∈ cor ∧ j ∈ inc) :
    ∃ e, classify guess cor inc = .error e ∧
      processGuess guess cor inc ws = .error e := by
  obtain ⟨e, he⟩ := classify_err_of_violation guess cor inc h
  exact ⟨e, he, by unfold processGuess; rw [he]⟩

/-- Witness for `classify_violation_aborts`: index `5` on a length-3 guess
aborts both classification and guess processing. -/
theorem classify_violation_aborts_witness :
    ∃ e, classify ['a','b','c'] [5] [0] = .error e ∧
      processGuess ['a','b','c'] [5] [0] [(['a','b','c'] : Word)] = .error e :=
  classify_violation_aborts ['a','b','c'] [5] [0] [['a','b','c']]
    (Or.inl ⟨5, Or.inl (by decide), by decide⟩)

end Eldrow
